import Mathlib

/-!
# Verification of the ax-i18n extraction/translation pipeline

Shallow embedding of the pipeline components of the `ax-i18n` repository:
the aggregate text store merge (`FileProcessor.processFile`), the key
generator (`src/utils/key-generator.ts`), the LLM client's retry and batch
translation logic (`src/llm/client.ts`), and the cache manager.
Each claim about the specification is settled by a theorem over these
definitions.
-/

namespace AxI18n

/-! ## Model of JS records (`Record<string, string>`) -/

/-- Functional model of a JS `Record<string, string>` object: a total
function from property names to an optional value (`none` = absent). -/
def Store := String → Option String

/-- JS property assignment `store[k] = v`: binds `k` to `v`, leaves every
other property unchanged. -/
def storeSet (s : Store) (k v : String) : Store :=
  fun k' => if k' = k then some v else s k'

/-- The empty record `{}`. -/
def storeEmpty : Store := fun _ => none

/-! ## Aggregate text store merge

Embedding of the merge loop in `FileProcessor.processFile`
(src/unnamed/part_012, lines 130-138): for each extracted pair the code
executes `this.allExtractedTexts[realKey] = text`, i.e. a plain JS
property assignment into the shared aggregate store.  The variant in
src/unnamed/part_011 (lines 169-175) performs the same assignment.  There
is no conflict check and no warning recording in either variant. -/

/-- Merge one unit's extracted `(FinalKey, SourceText)` pairs into the
aggregate store, exactly as the loop
`for ... { this.allExtractedTexts[realKey] = text }` does. -/
def mergeExtracted (store : Store) (pairs : List (String × String)) : Store :=
  pairs.foldl (fun st kv => storeSet st kv.1 kv.2) store

/-- A store already containing `{"k1": "A"}`. -/
def storeK1A : Store := storeSet storeEmpty "k1" "A"

theorem storeSet_same (s : Store) (k v : String) : storeSet s k v k = some v := by
  simp [storeSet]

theorem storeSet_other (s : Store) (k v k' : String) (h : k' ≠ k) :
    storeSet s k v k' = s k' := by
  simp [storeSet, h]

/-- Counterexample to C1: Merging `{"k1": "B"}` into a store that already
contains `{"k1": "A"}` does *not* retain `"A"`: the code overwrites the
binding with `"B"` (last-writer wins, no warning is recorded anywhere in
the merge loop), contradicting the claimed first-writer-wins behaviour. -/
theorem C1_merge_not_first_writer_wins :
    mergeExtracted storeK1A [("k1", "B")] "k1" = some "B" ∧
    mergeExtracted storeK1A [("k1", "B")] "k1" ≠ some "A" := by
  constructor
  · simp [mergeExtracted, storeK1A, storeSet]
  · simp [mergeExtracted, storeK1A, storeSet]

/-- Amended C1: The merge of one pair into the aggregate store is
idempotent when the incoming text equals the stored one (re-inserting a
`FinalKey` already mapped to the same text leaves the store unchanged and
signals no error), and *last-writer-wins* when the texts differ: the new
text replaces the stored one (no warning is recorded), while every other
key is unaffected. -/
theorem C1_merge_idempotent_last_writer_wins (store : Store) (k t : String) :
    (store k = some t → mergeExtracted store [(k, t)] = store) ∧
    (∀ t', store k = some t' →
      mergeExtracted store [(k, t)] k = some t ∧
      ∀ k', k' ≠ k → mergeExtracted store [(k, t)] k' = store k') := by
  refine ⟨fun hsame => ?_, fun t' _ => ⟨?_, fun k' hk' => ?_⟩⟩
  · funext k'
    by_cases h : k' = k
    · subst h; simpa [mergeExtracted, storeSet_same] using hsame.symm
    · simp [mergeExtracted, storeSet_other _ _ _ _ h]
  · simp [mergeExtracted, storeSet_same]
  · simp [mergeExtracted, storeSet_other _ _ _ _ hk']

/-- Witness for `C1_merge_idempotent_last_writer_wins` at the concrete
store `{"k1": "A"}`. -/
theorem C1_merge_idempotent_last_writer_wins_witness :
    mergeExtracted storeK1A [("k1", "A")] = storeK1A ∧
    mergeExtracted storeK1A [("k1", "B")] "k1" = some "B" ∧
    mergeExtracted storeK1A [("k1", "B")] "k2" = storeK1A "k2" := by
  have h := C1_merge_idempotent_last_writer_wins storeK1A "k1" "A"
  have h2 := C1_merge_idempotent_last_writer_wins storeK1A "k1" "B"
  have hA : storeK1A "k1" = some "A" := by simp [storeK1A, storeSet]
  refine ⟨h.1 hA, (h2.2 "A" hA).1, (h2.2 "A" hA).2 "k2" (by decide)⟩

/-! ## KeyGenerator (src/src/utils/key-generator.ts)

The generator depends on two external libraries: the `pinyin-pro`
transliteration and Node's `crypto` MD5 digest.  Both are modelled as
components of an environment `KGEnv`; `pinyinFn` returns `none` when the
library throws (the `catch` branch of `convertToPinyin`).  JS `Date.now()`
is passed in explicitly as a `now : Nat` argument.  JS strings are
modelled by `String` with `substring`/`length` acting on the character
list (all strings involved stay inside the basic multilingual plane, one
UTF-16 unit per character). -/

/-- The fields of `KeyGenerationConfig` that `KeyGenerator` reads. -/
structure KeyGenConfig where
  separator : String
  maxChineseLength : Nat
  hashLength : Nat
  keyPrefix : String
  reuseExistingKey : Bool

/-- External library functions used by `KeyGenerator`. -/
structure KGEnv where
  /-- Embedding of `pinyin(text, …)` joined per `convertToPinyin`; `none` models the
  library throwing. -/
  pinyinFn : String → Option String
  /-- Embedding of `createHash('md5').update(text).digest('hex')`. -/
  md5hex : String → String

/-- Mutable state of a `KeyGenerator` instance: the `existingKeys` set and
the `textToKeyMap` memo. -/
structure KGState where
  existingKeys : String → Bool
  textToKeyMap : String → Option String

/-- A freshly constructed `KeyGenerator`. -/
def KGState.empty : KGState := ⟨fun _ => false, fun _ => none⟩

/-- The regex class `[一-龥]` used by the source. -/
def isChineseChar (c : Char) : Bool :=
  decide (0x4e00 ≤ c.toNat) && decide (c.toNat ≤ 0x9fa5)

/-- An ASCII letter or digit (`a-zA-Z0-9`). -/
def isAsciiAlnum (c : Char) : Bool :=
  (decide (65 ≤ c.toNat) && decide (c.toNat ≤ 90)) ||
  (decide (97 ≤ c.toNat) && decide (c.toNat ≤ 122)) ||
  (decide (48 ≤ c.toNat) && decide (c.toNat ≤ 57))

/-- JS `key.startsWith(prefix)`. -/
def jsStartsWith (s p : String) : Bool := p.data.isPrefixOf s.data

/-- JS `s.substring(0, n)` (UTF-16 units = characters here). -/
def strTake (s : String) (n : Nat) : String := String.mk (s.data.take n)

/-- One base-36 digit, as JS `Number.prototype.toString(36)` renders it. -/
def digitChar36 (d : Nat) : Char :=
  if d < 10 then Char.ofNat (48 + d) else Char.ofNat (87 + d)

/-- Accumulator loop behind `toBase36`; the fuel bounds the number of
divisions by 36 and is always sufficient at `n + 1`. -/
def toBase36Aux : Nat → Nat → List Char → List Char
  | 0, _, acc => acc
  | fuel + 1, n, acc =>
    if n = 0 then acc else toBase36Aux fuel (n / 36) (digitChar36 (n % 36) :: acc)

/-- JS `n.toString(36)` for a natural number (used for
`char.charCodeAt(0).toString(36)` in the fallback key generation). -/
def toBase36 (n : Nat) : String :=
  if n = 0 then "0" else String.mk (toBase36Aux (n + 1) n [])

/-- JS `String.prototype.toLowerCase` on one ASCII character. -/
def jsToLowerChar (c : Char) : Char :=
  if 65 ≤ c.toNat ∧ c.toNat ≤ 90 then Char.ofNat (c.toNat + 32) else c

/-- Embedding of `KeyGenerator.generateHash`: MD5 hex digest truncated to `length`. -/
def generateHash (env : KGEnv) (text : String) (length : Nat) : String :=
  strTake (env.md5hex text) length

/-- The `cleaned` variable of `fallbackKeyGeneration`:
`text.replace(/[^一-龥a-zA-Z0-9]/g, '')`. -/
def cleanedChars (text : String) : List Char :=
  text.data.filter (fun c => isChineseChar c || isAsciiAlnum c)

/-- The per-character rewrite of `fallbackKeyGeneration`: a Chinese
character becomes its char code in base 36, anything else is lowercased. -/
def fallbackChunk (c : Char) : List Char :=
  (if isChineseChar c then toBase36 c.toNat else String.mk [jsToLowerChar c]).data

/-- Embedding of `KeyGenerator.fallbackKeyGeneration`: strip everything outside
`[一-龥a-zA-Z0-9]`; if nothing is left hash the text, otherwise
rewrite Chinese characters to base-36 char codes and lowercase the rest. -/
def fallbackKeyGeneration (env : KGEnv) (text : String) : String :=
  if (cleanedChars text).length = 0 then
    generateHash env text 8
  else
    String.mk ((cleanedChars text).foldr (fun c acc => fallbackChunk c ++ acc) [])

/-- Embedding of `KeyGenerator.convertToPinyin`: the library call, degrading to
`fallbackKeyGeneration` when the library throws. -/
def convertToPinyin (env : KGEnv) (text : String) : String :=
  match env.pinyinFn text with
  | some r => r
  | none => fallbackKeyGeneration env text

/-- Embedding of `KeyGenerator.limitLength`: keep the transliteration if it fits,
otherwise truncate to `maxChineseLength` and append
`separator + hash(originalText)[:hashLength]`. -/
def limitLength (cfg : KeyGenConfig) (env : KGEnv) (py originalText : String) : String :=
  if py.length ≤ cfg.maxChineseLength then py
  else strTake py cfg.maxChineseLength ++ cfg.separator ++
    generateHash env originalText cfg.hashLength

/-- Embedding of `KeyGenerator.handleDuplicateKey`: append
`separator + hash(text + Date.now())[:hashLength]`. -/
def handleDuplicateKey (cfg : KeyGenConfig) (env : KGEnv) (baseKey text : String)
    (now : Nat) : String :=
  baseKey ++ cfg.separator ++ generateHash env (text ++ toString now) cfg.hashLength

/-- The `baseKey` local of `generateKey` just before duplicate handling:
transliterate, limit the length, then prepend `keyPrefix + separator`
when a prefix is configured (JS truthiness: the empty prefix is skipped). -/
def baseKeyOf (cfg : KeyGenConfig) (env : KGEnv) (text : String) : String :=
  if cfg.keyPrefix != "" then
    cfg.keyPrefix ++ cfg.separator ++ limitLength cfg env (convertToPinyin env text) text
  else
    limitLength cfg env (convertToPinyin env text) text

/-- Embedding of `KeyGenerator.generateKey`, returning the key together with the
updated generator state. -/
def generateKey (cfg : KeyGenConfig) (env : KGEnv) (s : KGState) (now : Nat)
    (text : String) : String × KGState :=
  if cfg.reuseExistingKey && (s.textToKeyMap text).isSome then
    ((s.textToKeyMap text).getD "", s)
  else
    let finalKey :=
      if !cfg.reuseExistingKey && s.existingKeys (baseKeyOf cfg env text) then
        handleDuplicateKey cfg env (baseKeyOf cfg env text) text now
      else baseKeyOf cfg env text
    (finalKey,
      ⟨fun k => if k = finalKey then true else s.existingKeys k,
       fun t => if t = text then some finalKey else s.textToKeyMap t⟩)

/-- The charset accepted by `validateKey`'s regex `^[a-zA-Z0-9_\-\.]+$`. -/
def isValidKeyChar (c : Char) : Bool :=
  isAsciiAlnum c || decide (c = '_') || decide (c = '-') || decide (c = '.')

/-- Embedding of `KeyGenerator.validateKey`: non-empty, prefix conformance when a
prefix is configured, and the `[a-zA-Z0-9_\-\.]` charset. -/
def validateKey (cfg : KeyGenConfig) (key : String) : Bool :=
  if key.data = [] then false
  else if cfg.keyPrefix != "" && !jsStartsWith key cfg.keyPrefix then false
  else key.data.all isValidKeyChar

/-! ### Character-level facts used for key validity -/

theorem toNat_ofNat_valid (n : Nat) (h : n.isValidChar) : (Char.ofNat n).toNat = n := by
  unfold Char.ofNat
  rw [dif_pos h]
  rfl

theorem validKeyChar_of_alnum (c : Char) (h : isAsciiAlnum c = true) :
    isValidKeyChar c = true := by
  simp [isValidKeyChar, h]

/-- A lowercase hexadecimal character (`0-9a-f`), the alphabet of an MD5
hex digest. -/
def isLowerHexChar (c : Char) : Bool :=
  (decide (48 ≤ c.toNat) && decide (c.toNat ≤ 57)) ||
  (decide (97 ≤ c.toNat) && decide (c.toNat ≤ 102))

theorem alnum_of_hex (c : Char) (h : isLowerHexChar c = true) : isAsciiAlnum c = true := by
  simp only [isLowerHexChar, isAsciiAlnum, Bool.or_eq_true, Bool.and_eq_true,
    decide_eq_true_eq] at h ⊢
  omega

theorem digitChar36_valid : ∀ d : Nat, d < 36 → isValidKeyChar (digitChar36 d) = true := by
  decide

theorem toBase36Aux_all (fuel : Nat) : ∀ (n : Nat) (acc : List Char),
    (∀ c ∈ acc, isValidKeyChar c = true) →
    ∀ c ∈ toBase36Aux fuel n acc, isValidKeyChar c = true := by
  induction fuel with
  | zero => intro n acc hacc; simpa [toBase36Aux] using hacc
  | succ fuel ih =>
    intro n acc hacc c hc
    simp only [toBase36Aux] at hc
    split at hc
    · exact hacc c hc
    · refine ih (n / 36) _ ?_ c hc
      intro c' hc'
      rcases List.mem_cons.mp hc' with h | h
      · subst h; exact digitChar36_valid _ (Nat.mod_lt _ (by omega))
      · exact hacc c' h

theorem toBase36Aux_length (fuel : Nat) : ∀ (n : Nat) (acc : List Char),
    acc.length ≤ (toBase36Aux fuel n acc).length := by
  induction fuel with
  | zero => intro n acc; simp [toBase36Aux]
  | succ fuel ih =>
    intro n acc
    simp only [toBase36Aux]
    split
    · exact le_refl _
    · exact le_trans (Nat.le_succ _) (ih (n / 36) (digitChar36 (n % 36) :: acc))

theorem toBase36_valid (n : Nat) : ∀ c ∈ (toBase36 n).data, isValidKeyChar c = true := by
  unfold toBase36
  split
  · decide
  · exact toBase36Aux_all _ _ _ (by simp)

theorem toBase36_ne_nil (n : Nat) : (toBase36 n).data ≠ [] := by
  unfold toBase36
  split
  · decide
  · next h =>
    have h1 := toBase36Aux_length n (n / 36) [digitChar36 (n % 36)]
    simp only [toBase36Aux, if_neg h]
    intro hnil
    rw [hnil] at h1
    simp at h1

theorem jsToLowerChar_alnum (c : Char) (h : isAsciiAlnum c = true) :
    isAsciiAlnum (jsToLowerChar c) = true := by
  unfold jsToLowerChar
  split
  · next hc =>
    have hv : (c.toNat + 32).isValidChar := by
      unfold Nat.isValidChar
      omega
    simp only [isAsciiAlnum, Bool.or_eq_true, Bool.and_eq_true, decide_eq_true_eq,
      toNat_ofNat_valid _ hv]
    omega
  · exact h

/-- What the `crypto` MD5 hex digest guarantees about its output: exactly
32 lowercase hexadecimal characters. -/
def MD5Model (f : String → String) : Prop :=
  ∀ t, (f t).data.length = 32 ∧ ∀ c ∈ (f t).data, isLowerHexChar c = true

theorem generateHash_valid (env : KGEnv) (hmd5 : MD5Model env.md5hex)
    (text : String) (len : Nat) :
    ∀ c ∈ (generateHash env text len).data, isValidKeyChar c = true := by
  intro c hc
  simp only [generateHash, strTake] at hc
  exact validKeyChar_of_alnum _ (alnum_of_hex _ ((hmd5 text).2 c (List.mem_of_mem_take hc)))

theorem generateHash_length (env : KGEnv) (hmd5 : MD5Model env.md5hex)
    (text : String) (len : Nat) :
    (generateHash env text len).data.length = min len 32 := by
  simp [generateHash, strTake, List.length_take, (hmd5 text).1]

theorem fallbackChunk_valid (d : Char) (hd : (isChineseChar d || isAsciiAlnum d) = true) :
    ∀ c ∈ fallbackChunk d, isValidKeyChar c = true := by
  intro c hc
  unfold fallbackChunk at hc
  by_cases hch : isChineseChar d = true
  · rw [if_pos hch] at hc
    exact toBase36_valid _ c hc
  · rw [if_neg hch] at hc
    simp only [List.mem_singleton] at hc
    subst hc
    rw [Bool.or_eq_true] at hd
    rcases hd with hd | hd
    · exact absurd hd hch
    · exact validKeyChar_of_alnum _ (jsToLowerChar_alnum _ hd)

theorem fallbackChunk_ne_nil (d : Char) : fallbackChunk d ≠ [] := by
  unfold fallbackChunk
  by_cases hch : isChineseChar d = true
  · rw [if_pos hch]
    exact toBase36_ne_nil _
  · rw [if_neg hch]
    simp

theorem fallback_valid (env : KGEnv) (hmd5 : MD5Model env.md5hex) (text : String) :
    (∀ c ∈ (fallbackKeyGeneration env text).data, isValidKeyChar c = true) ∧
    (fallbackKeyGeneration env text).data ≠ [] := by
  have hmem : ∀ c ∈ cleanedChars text, (isChineseChar c || isAsciiAlnum c) = true := by
    intro c hc
    exact (List.mem_filter.mp hc).2
  unfold fallbackKeyGeneration
  split
  · refine ⟨generateHash_valid env hmd5 text 8, ?_⟩
    intro hnil
    have := generateHash_length env hmd5 text 8
    rw [hnil] at this
    simp at this
  · next hlen =>
    have hstep : ∀ (l : List Char), (∀ c ∈ l, (isChineseChar c || isAsciiAlnum c) = true) →
        ∀ c ∈ l.foldr (fun c acc => fallbackChunk c ++ acc) [], isValidKeyChar c = true := by
      intro l
      induction l with
      | nil => intro _ c hc; simp at hc
      | cons d rest ih =>
        intro hl c hc
        simp only [List.foldr_cons, List.mem_append] at hc
        rcases hc with hc | hc
        · exact fallbackChunk_valid d (hl d (List.mem_cons_self _ _)) c hc
        · exact ih (fun c' h => hl c' (List.mem_cons_of_mem _ h)) c hc
    refine ⟨hstep _ hmem, ?_⟩
    cases hc : cleanedChars text with
    | nil => rw [hc] at hlen; simp at hlen
    | cons d rest =>
      simp only [List.foldr_cons]
      intro hnil
      rcases List.append_eq_nil.mp hnil with ⟨h1, _⟩
      exact fallbackChunk_ne_nil d h1

theorem limitLength_valid (cfg : KeyGenConfig) (env : KGEnv) (py text : String)
    (hmax : 0 < cfg.maxChineseLength)
    (hsep : ∀ c ∈ cfg.separator.data, isValidKeyChar c = true)
    (hmd5 : MD5Model env.md5hex)
    (hne : py.data ≠ [])
    (hall : ∀ c ∈ py.data, isValidKeyChar c = true) :
    (limitLength cfg env py text).data ≠ [] ∧
    ∀ c ∈ (limitLength cfg env py text).data, isValidKeyChar c = true := by
  unfold limitLength
  split
  · exact ⟨hne, hall⟩
  · next hlen =>
    have hpylen : cfg.maxChineseLength < py.data.length := Nat.lt_of_not_le hlen
    constructor
    · intro hnil
      simp only [String.data_append] at hnil
      rcases List.append_eq_nil.mp hnil with ⟨h1, _⟩
      rcases List.append_eq_nil.mp h1 with ⟨h2, _⟩
      have hlen2 : (strTake py cfg.maxChineseLength).data.length = cfg.maxChineseLength := by
        simp only [strTake, List.length_take]
        omega
      rw [h2] at hlen2
      simp at hlen2
      omega
    · intro c hc
      simp only [String.data_append, List.mem_append] at hc
      rcases hc with (hc | hc) | hc
      · have hc' : c ∈ py.data.take cfg.maxChineseLength := by
          simpa [strTake] using hc
        exact hall c (List.mem_of_mem_take hc')
      · exact hsep c hc
      · exact generateHash_valid env hmd5 text _ c hc

/-- Unfolding of `validateKey` into its three conditions. -/
theorem validateKey_eq_true_iff (cfg : KeyGenConfig) (key : String) :
    validateKey cfg key = true ↔
      key.data ≠ [] ∧ (cfg.keyPrefix ≠ "" → jsStartsWith key cfg.keyPrefix = true) ∧
      ∀ c ∈ key.data, isValidKeyChar c = true := by
  unfold validateKey
  by_cases h1 : key.data = []
  · simp [h1]
  · rw [if_neg h1]
    by_cases hp : cfg.keyPrefix = ""
    · simp [hp, h1, List.all_eq_true]
    · by_cases hs : jsStartsWith key cfg.keyPrefix = true
      · simp [hp, hs, h1, List.all_eq_true]
      · have hs' : jsStartsWith key cfg.keyPrefix = false := by
          simpa using hs
        simp [hp, hs', h1, List.all_eq_true]

theorem jsStartsWith_append (p q : String) : jsStartsWith (p ++ q) p = true := by
  unfold jsStartsWith
  rw [String.data_append, List.isPrefixOf_iff_prefix]
  exact List.prefix_append _ _

theorem jsStartsWith_mono (s t p : String) (h : jsStartsWith s p = true) :
    jsStartsWith (s ++ t) p = true := by
  unfold jsStartsWith at h ⊢
  rw [List.isPrefixOf_iff_prefix] at h ⊢
  rw [String.data_append]
  exact h.trans (List.prefix_append _ _)

/-- A valid key stays valid when a suffix over the key charset is appended. -/
theorem validateKey_append (cfg : KeyGenConfig) (key sfx : String)
    (h : validateKey cfg key = true)
    (hsfx : ∀ c ∈ sfx.data, isValidKeyChar c = true) :
    validateKey cfg (key ++ sfx) = true := by
  rw [validateKey_eq_true_iff] at h ⊢
  obtain ⟨h1, h2, h3⟩ := h
  refine ⟨?_, fun hp => jsStartsWith_mono _ _ _ (h2 hp), ?_⟩
  · rw [String.data_append]
    intro hx
    rcases List.append_eq_nil.mp hx with ⟨hx1, _⟩
    exact h1 hx1
  · intro c hc
    rw [String.data_append] at hc
    rcases List.mem_append.mp hc with hc | hc
    · exact h3 c hc
    · exact hsfx c hc

theorem baseKeyOf_valid (cfg : KeyGenConfig) (env : KGEnv) (text : String)
    (hmax : 0 < cfg.maxChineseLength)
    (hsep : ∀ c ∈ cfg.separator.data, isValidKeyChar c = true)
    (hpre : ∀ c ∈ cfg.keyPrefix.data, isValidKeyChar c = true)
    (hmd5 : MD5Model env.md5hex)
    (hpy : ∀ r, env.pinyinFn text = some r →
      r.data ≠ [] ∧ ∀ c ∈ r.data, isValidKeyChar c = true) :
    validateKey cfg (baseKeyOf cfg env text) = true := by
  have hpyv : (convertToPinyin env text).data ≠ [] ∧
      ∀ c ∈ (convertToPinyin env text).data, isValidKeyChar c = true := by
    unfold convertToPinyin
    cases hp : env.pinyinFn text with
    | some r => exact hpy r hp
    | none => exact ⟨(fallback_valid env hmd5 text).2, (fallback_valid env hmd5 text).1⟩
  have hb0 := limitLength_valid cfg env (convertToPinyin env text) text hmax hsep hmd5
    hpyv.1 hpyv.2
  unfold baseKeyOf
  split
  · next hp =>
    rw [validateKey_eq_true_iff]
    refine ⟨?_, fun _ => jsStartsWith_mono _ _ _ (jsStartsWith_append _ _), ?_⟩
    · simp only [String.data_append]
      intro hx
      rcases List.append_eq_nil.mp hx with ⟨_, hx2⟩
      exact hb0.1 hx2
    · intro c hc
      simp only [String.data_append, List.mem_append] at hc
      rcases hc with (hc | hc) | hc
      · exact hpre c hc
      · exact hsep c hc
      · exact hb0.2 c hc
  · next hp =>
    rw [validateKey_eq_true_iff]
    have hpe : cfg.keyPrefix = "" := by
      by_contra hne
      exact hp (by simpa [bne_iff_ne] using hne)
    exact ⟨hb0.1, fun h => absurd hpe h, hb0.2⟩

/-- Counterexample configuration: the repository's default key-generation
configuration (`separator '_'`, `maxChineseLength 10`, `hashLength 6`, no
prefix, `reuseExistingKey: true` — src/unnamed/part_004, lines 22-27). -/
def cfgDefault : KeyGenConfig :=
  { separator := "_", maxChineseLength := 10, hashLength := 6,
    keyPrefix := "", reuseExistingKey := true }

/-- Stand-in for the MD5 hex digest at concrete inputs (a fixed 32-char
lowercase hex string; none of the concrete facts depend on its value). -/
def md5Stub : String → String := fun _ => "0123456789abcdef0123456789abcdef"

/-- Environment for concrete evaluations: `pinyin-pro` with
`nonZh: 'consecutive'` passes non-Chinese input through unchanged; in
particular the empty string transliterates to the empty string. -/
def envStub : KGEnv := ⟨fun s => some s, md5Stub⟩

/-- Counterexample to C2: `generateKey("")` returns the empty string
(the transliteration of `""` is empty, within the length limit, and there
is no prefix), and `validateKey` rejects the empty string — so
`generateKey` does not always return a syntactically valid key. -/
theorem C2_generateKey_empty_text_invalid :
    validateKey cfgDefault (generateKey cfgDefault envStub KGState.empty 0 "").1 = false := by
  decide

/-- Amended C2: `generateKey` never throws (it is a total
function), and it returns a key accepted by `validateKey` whenever the
transliterated text is non-empty and uses only the key charset (letters,
digits, `_`, `-`, `.`), the separator and prefix are drawn from that
charset, `maxChineseLength` is positive (the config validator requires
at least 1), and every memoized key is valid.  For other inputs — the
empty string, or text whose romanization contains characters such as
spaces — the returned key can fail `validateKey`. -/
theorem C2_generateKey_valid (cfg : KeyGenConfig) (env : KGEnv) (s : KGState)
    (now : Nat) (text : String)
    (hmax : 0 < cfg.maxChineseLength)
    (hsep : ∀ c ∈ cfg.separator.data, isValidKeyChar c = true)
    (hpre : ∀ c ∈ cfg.keyPrefix.data, isValidKeyChar c = true)
    (hmd5 : MD5Model env.md5hex)
    (hpy : ∀ r, env.pinyinFn text = some r →
      r.data ≠ [] ∧ ∀ c ∈ r.data, isValidKeyChar c = true)
    (hmem : ∀ t k, s.textToKeyMap t = some k → validateKey cfg k = true) :
    validateKey cfg (generateKey cfg env s now text).1 = true := by
  have hbase := baseKeyOf_valid cfg env text hmax hsep hpre hmd5 hpy
  unfold generateKey
  split
  · next hcond =>
    rw [Bool.and_eq_true] at hcond
    obtain ⟨k, hk⟩ := Option.isSome_iff_exists.mp hcond.2
    simpa [hk] using hmem text k hk
  · dsimp only
    split
    · unfold handleDuplicateKey
      exact validateKey_append _ _ _ (validateKey_append _ _ _ hbase hsep)
        (generateHash_valid env hmd5 _ _)
    · exact hbase

/-- The stand-in digest satisfies the MD5 output model. -/
theorem md5Stub_model : MD5Model md5Stub := by
  intro t
  refine ⟨rfl, ?_⟩
  have h : md5Stub t = "0123456789abcdef0123456789abcdef" := rfl
  rw [h]
  decide

/-- Environment for the `C2_generateKey_valid` witness: `pinyin-pro` with
array type and separator join maps `"提交"` to `"ti_jiao"`. -/
def envTiJiao : KGEnv := ⟨fun s => some (if s = "提交" then "ti_jiao" else s), md5Stub⟩

/-- Witness for `C2_generateKey_valid` at `text = "提交"` under the
default configuration and a fresh generator. -/
theorem C2_generateKey_valid_witness :
    validateKey cfgDefault (generateKey cfgDefault envTiJiao KGState.empty 0 "提交").1 = true := by
  refine C2_generateKey_valid cfgDefault envTiJiao KGState.empty 0 "提交"
    (by decide) (by decide) (by decide) md5Stub_model ?_ ?_
  · intro r hr
    simp only [envTiJiao, if_pos rfl] at hr
    cases hr
    exact ⟨by decide, by decide⟩
  · intro t k hk
    simp [KGState.empty] at hk

/-! ### C3: uniqueness under `reuseExistingKey = false` -/

/-- The default configuration with key reuse disabled. -/
def cfgNoReuse : KeyGenConfig :=
  { separator := "_", maxChineseLength := 10, hashLength := 6,
    keyPrefix := "", reuseExistingKey := false }

/-- Counterexample to C3: With `reuseExistingKey = false`, three calls
with the same text `"a"` within the same millisecond (`Date.now() = 5`
each time) make the third call return exactly the second call's key: the
collision suffix is `hash(text + Date.now())`, and `Date.now()` is not a
fresh nonce, so the claimed distinctness from *every* earlier key fails. -/
theorem C3_third_call_repeats_second :
    (generateKey cfgNoReuse envStub
        (generateKey cfgNoReuse envStub
          (generateKey cfgNoReuse envStub KGState.empty 5 "a").2 5 "a").2 5 "a").1 =
      (generateKey cfgNoReuse envStub
        (generateKey cfgNoReuse envStub KGState.empty 5 "a").2 5 "a").1 ∧
    (generateKey cfgNoReuse envStub
        (generateKey cfgNoReuse envStub KGState.empty 5 "a").2 5 "a").1 ≠
      (generateKey cfgNoReuse envStub KGState.empty 5 "a").1 := by
  constructor
  · decide
  · decide

theorem data_ne_nil_of_ne_empty (s : String) (h : s ≠ "") : s.data ≠ [] := by
  intro hd
  apply h
  cases s with
  | mk data =>
    simp only at hd
    rw [hd]

/-- Amended C3: With `reuseExistingKey = false` and the base key
not yet in the used-key set, the *second* call with the same text returns
a key different from the first call's key (the separator is non-empty,
as the config validator requires, so the collision suffix strictly
lengthens the key), and both keys pass `validateKey` under the charset
conditions of C2.  Distinctness does not extend to every earlier call:
the collision "nonce" is `Date.now()`, so a third call in the same
millisecond can repeat the second key (see the counterexample). -/
theorem C3_second_call_differs (cfg : KeyGenConfig) (env : KGEnv) (s : KGState)
    (now1 now2 : Nat) (text : String)
    (hnoreuse : cfg.reuseExistingKey = false)
    (hfresh : s.existingKeys (baseKeyOf cfg env text) = false)
    (hsepne : cfg.separator ≠ "")
    (hmax : 0 < cfg.maxChineseLength)
    (hsep : ∀ c ∈ cfg.separator.data, isValidKeyChar c = true)
    (hpre : ∀ c ∈ cfg.keyPrefix.data, isValidKeyChar c = true)
    (hmd5 : MD5Model env.md5hex)
    (hpy : ∀ r, env.pinyinFn text = some r →
      r.data ≠ [] ∧ ∀ c ∈ r.data, isValidKeyChar c = true) :
    (generateKey cfg env (generateKey cfg env s now1 text).2 now2 text).1
      ≠ (generateKey cfg env s now1 text).1 ∧
    validateKey cfg (generateKey cfg env s now1 text).1 = true ∧
    validateKey cfg
      (generateKey cfg env (generateKey cfg env s now1 text).2 now2 text).1 = true := by
  have hbase := baseKeyOf_valid cfg env text hmax hsep hpre hmd5 hpy
  have hk1 : (generateKey cfg env s now1 text).1 = baseKeyOf cfg env text := by
    unfold generateKey
    simp [hnoreuse, hfresh]
  have hs1 : (generateKey cfg env s now1 text).2.existingKeys (baseKeyOf cfg env text)
      = true := by
    unfold generateKey
    simp [hnoreuse, hfresh]
  have hk2 : (generateKey cfg env (generateKey cfg env s now1 text).2 now2 text).1
      = handleDuplicateKey cfg env (baseKeyOf cfg env text) text now2 := by
    conv_lhs => rw [generateKey]
    simp [hnoreuse, hs1]
  have hseplen : 0 < cfg.separator.data.length := by
    cases hd : cfg.separator.data with
    | nil => exact absurd hd (data_ne_nil_of_ne_empty _ hsepne)
    | cons a l => simp
  have hlonger : (baseKeyOf cfg env text).data.length
      < (handleDuplicateKey cfg env (baseKeyOf cfg env text) text now2).data.length := by
    unfold handleDuplicateKey
    simp only [String.data_append, List.length_append]
    omega
  refine ⟨?_, ?_, ?_⟩
  · rw [hk1, hk2]
    intro heq
    have := congrArg (fun q : String => q.data.length) heq
    simp only at this
    omega
  · rw [hk1]; exact hbase
  · rw [hk2]
    unfold handleDuplicateKey
    exact validateKey_append _ _ _ (validateKey_append _ _ _ hbase hsep)
      (generateHash_valid env hmd5 _ _)

/-- Witness for `C3_second_call_differs`: two calls with text `"a"` under
the no-reuse configuration, fresh generator, at times 1 and 2. -/
theorem C3_second_call_differs_witness :
    (generateKey cfgNoReuse envStub
        (generateKey cfgNoReuse envStub KGState.empty 1 "a").2 2 "a").1
      ≠ (generateKey cfgNoReuse envStub KGState.empty 1 "a").1 ∧
    validateKey cfgNoReuse (generateKey cfgNoReuse envStub KGState.empty 1 "a").1 = true ∧
    validateKey cfgNoReuse
      (generateKey cfgNoReuse envStub
        (generateKey cfgNoReuse envStub KGState.empty 1 "a").2 2 "a").1 = true := by
  refine C3_second_call_differs cfgNoReuse envStub KGState.empty 1 2 "a"
    rfl rfl (by decide) (by decide) (by decide) (by decide) md5Stub_model ?_
  intro r hr
  simp only [envStub] at hr
  cases hr
  exact ⟨by decide, by decide⟩

/-! ### C8: length limiting -/

/-- Claim C8: When the transliteration of a text exceeds
`maxChineseLength`, the base key computed by `generateKey` (the result of
`limitLength` on the transliteration) is exactly: the first
`maxChineseLength` characters of the transliteration, followed by the
separator, followed by the first `hashLength` characters of the MD5 hex
digest of the *original* text (`generateHash(originalText, hashLength)`),
not of the truncated form. -/
theorem C8_base_key_truncation (cfg : KeyGenConfig) (env : KGEnv) (text : String)
    (h : cfg.maxChineseLength < (convertToPinyin env text).length) :
    limitLength cfg env (convertToPinyin env text) text
      = strTake (convertToPinyin env text) cfg.maxChineseLength ++ cfg.separator ++
        strTake (env.md5hex text) cfg.hashLength := by
  unfold limitLength generateHash
  rw [if_neg (Nat.not_le_of_lt h)]

/-- Configuration of the spec's length-handling scenario:
`maxLength = 5`, `hashLength = 6`. -/
def cfgLen5 : KeyGenConfig :=
  { separator := "_", maxChineseLength := 5, hashLength := 6,
    keyPrefix := "", reuseExistingKey := true }

/-- Witness for `C8_base_key_truncation`: a text whose transliteration
(`"helloworld"`, 10 characters) exceeds `maxLength = 5`. -/
theorem C8_base_key_truncation_witness :
    limitLength cfgLen5 envStub (convertToPinyin envStub "helloworld") "helloworld"
      = strTake (convertToPinyin envStub "helloworld") 5 ++ "_" ++
        strTake (envStub.md5hex "helloworld") 6 :=
  C8_base_key_truncation cfgLen5 envStub "helloworld" (by decide)

/-! ### C9: determinism under `reuseExistingKey = true` -/

/-- Run a sequence of `generateKey` calls (text and `Date.now()` value
for each), threading the generator state. -/
def runCalls (cfg : KeyGenConfig) (env : KGEnv) (s : KGState) :
    List (String × Nat) → KGState
  | [] => s
  | (t, n) :: rest => runCalls cfg env (generateKey cfg env s n t).2 rest

theorem generateKey_preserves_memo (cfg : KeyGenConfig) (env : KGEnv) (s : KGState)
    (now : Nat) (t u k : String)
    (hreuse : cfg.reuseExistingKey = true)
    (h : s.textToKeyMap u = some k) :
    (generateKey cfg env s now t).2.textToKeyMap u = some k := by
  unfold generateKey
  split
  · exact h
  · next hcond =>
    dsimp only
    by_cases hu : u = t
    · subst hu
      rw [h] at hcond
      simp [hreuse] at hcond
    · simp [hu, h]

theorem runCalls_preserves_memo (cfg : KeyGenConfig) (env : KGEnv)
    (hreuse : cfg.reuseExistingKey = true) (calls : List (String × Nat)) :
    ∀ (s : KGState) (u k : String), s.textToKeyMap u = some k →
      (runCalls cfg env s calls).textToKeyMap u = some k := by
  induction calls with
  | nil => intro s u k h; exact h
  | cons c rest ih =>
    intro s u k h
    exact ih _ u k (generateKey_preserves_memo cfg env s c.2 c.1 u k hreuse h)

theorem generateKey_sets_memo (cfg : KeyGenConfig) (env : KGEnv) (s : KGState)
    (now : Nat) (t : String) :
    (generateKey cfg env s now t).2.textToKeyMap t
      = some (generateKey cfg env s now t).1 := by
  unfold generateKey
  split
  · next hcond =>
    rw [Bool.and_eq_true] at hcond
    obtain ⟨k, hk⟩ := Option.isSome_iff_exists.mp hcond.2
    simp [hk]
  · dsimp only
    simp

theorem generateKey_returns_memo (cfg : KeyGenConfig) (env : KGEnv) (s : KGState)
    (now : Nat) (t k : String)
    (hreuse : cfg.reuseExistingKey = true)
    (h : s.textToKeyMap t = some k) :
    (generateKey cfg env s now t).1 = k := by
  simp [generateKey, hreuse, h]

/-- Claim C9: With `reuseExistingKey = true`, `generateKey` is
deterministic across a run: after a first call assigns a key to a text,
every later call with that text — regardless of any other `generateKey`
calls executed in between and of the current time — returns exactly the
first call's key. -/
theorem C9_generateKey_deterministic (cfg : KeyGenConfig) (env : KGEnv) (s : KGState)
    (now now' : Nat) (text : String) (calls : List (String × Nat))
    (hreuse : cfg.reuseExistingKey = true) :
    (generateKey cfg env
        (runCalls cfg env (generateKey cfg env s now text).2 calls) now' text).1
      = (generateKey cfg env s now text).1 := by
  have h0 := generateKey_sets_memo cfg env s now text
  have h1 := runCalls_preserves_memo cfg env hreuse calls _ text _ h0
  exact generateKey_returns_memo cfg env _ now' text _ hreuse h1

/-- Witness for `C9_generateKey_deterministic`: two calls with `"提交"`
under the default (reuse-enabled) configuration, with an unrelated call
in between and different `Date.now()` values. -/
theorem C9_generateKey_deterministic_witness :
    (generateKey cfgDefault envTiJiao
        (runCalls cfgDefault envTiJiao
          (generateKey cfgDefault envTiJiao KGState.empty 0 "提交").2 [("你好", 1)]) 2 "提交").1
      = (generateKey cfgDefault envTiJiao KGState.empty 0 "提交").1 :=
  C9_generateKey_deterministic cfgDefault envTiJiao KGState.empty 0 2 "提交" [("你好", 1)] rfl

/-! ## LLMClient (src/src/llm/client.ts)

### C4: `invokeWithRetry` -/

/-- Observable trace of one `invokeWithRetry` execution: the outcome
(`.error` = the final `throw`), the number of provider invocations
(`llm.invoke` calls), and the backoff delays slept between consecutive
attempts, in order. -/
structure RetryTrace where
  result : Except String String
  calls : Nat
  delays : List Nat

/-- The `for (attempt = 0; attempt <= maxRetries; attempt++)` loop of
`LLMClient.invokeWithRetry`.  The provider is modelled as a function from
the attempt index to that invocation's outcome (the prompt is the same
on every attempt, but each invocation may behave differently).  `fuel` is
the number of iterations still to run (`maxRetries + 1 - attempt`), and
`lastError` is the accumulator variable of the source; at `fuel = 0` the
loop has ended and the last error is thrown. -/
def retryLoop (provider : Nat → Except String String) (maxRetries : Nat) :
    Nat → Option String → RetryTrace
  | 0, lastError => ⟨.error (lastError.getD "invoke failed"), 0, []⟩
  | fuel + 1, _lastError =>
    match provider (maxRetries - fuel) with
    | .ok r => ⟨.ok r, 1, []⟩
    | .error e =>
      let rest := retryLoop provider maxRetries fuel (some e)
      ⟨rest.result, rest.calls + 1,
        (if fuel = 0 then [] else [2 ^ (maxRetries - fuel) * 1000]) ++ rest.delays⟩

/-- Embedding of `LLMClient.invokeWithRetry(llm, prompt, maxRetries)`. -/
def invokeWithRetry (provider : Nat → Except String String) (maxRetries : Nat) :
    RetryTrace :=
  retryLoop provider maxRetries (maxRetries + 1) none

theorem retryLoop_all_fail (provider : Nat → Except String String) (f : Nat → String)
    (hfail : ∀ n, provider n = .error (f n)) (maxRetries : Nat) :
    ∀ (fuel : Nat) (lastError : Option String), 0 < fuel → fuel ≤ maxRetries + 1 →
      retryLoop provider maxRetries fuel lastError
        = ⟨.error (f maxRetries), fuel,
           (List.range' (maxRetries + 1 - fuel) (fuel - 1)).map (fun a => 2 ^ a * 1000)⟩ := by
  intro fuel
  induction fuel with
  | zero => intro _ h; exact absurd h (by omega)
  | succ n ih =>
    intro lastError _ hle
    cases n with
    | zero =>
      simp [retryLoop, hfail maxRetries]
    | succ m =>
      rw [retryLoop, hfail (maxRetries - (m + 1))]
      dsimp only
      rw [ih (some (f (maxRetries - (m + 1)))) (by omega) (by omega)]
      have h1 : maxRetries + 1 - (m + 1 + 1) = maxRetries - (m + 1) := by omega
      have h2 : maxRetries + 1 - (m + 1) = maxRetries - (m + 1) + 1 := by omega
      simp only [h1, h2, Nat.add_sub_cancel, List.range'_succ, List.map_cons,
        Nat.succ_ne_zero, if_false, List.singleton_append]

/-- Claim C4: Against a provider that fails on every invocation,
`invokeWithRetry(prompt, maxRetries)` performs exactly `maxRetries + 1`
provider invocations, sleeps `2^attempt * 1000` ms between consecutive
attempts (attempts `0 … maxRetries - 1`), and finally raises the error of
the last attempt. -/
theorem C4_invokeWithRetry_exhausts (provider : Nat → Except String String)
    (f : Nat → String) (maxRetries : Nat)
    (hfail : ∀ n, provider n = .error (f n)) :
    invokeWithRetry provider maxRetries
      = ⟨.error (f maxRetries), maxRetries + 1,
         (List.range maxRetries).map (fun a => 2 ^ a * 1000)⟩ := by
  unfold invokeWithRetry
  rw [retryLoop_all_fail provider f hfail maxRetries (maxRetries + 1) none
    (by omega) (by omega)]
  simp [List.range_eq_range']

/-- Witness for `C4_invokeWithRetry_exhausts`: the spec's scenario
`maxRetries = 2` — exactly 3 invocations, backoff delays 1000 ms and
2000 ms, and the final raise. -/
theorem C4_invokeWithRetry_exhausts_witness :
    invokeWithRetry (fun n => .error (toString n)) 2
      = ⟨.error "2", 3, [1000, 2000]⟩ := by
  rw [C4_invokeWithRetry_exhausts (fun n => .error (toString n)) (fun n => toString n) 2
    (fun _ => rfl)]
  rfl

/-! ### C5: `batchTranslateTexts` partial-failure isolation -/

/-- JS `texts[key]` on the input record, modelled as an association list
with unique keys (a JS object cannot bind a property twice). -/
def lookupTexts (texts : List (String × String)) (k : String) : String :=
  ((texts.find? (fun kv => kv.1 == k)).map Prod.snd).getD ""

/-- The `batchTexts` record built for one batch of keys
(`Object.fromEntries(batchKeys.map(key => [key, texts[key]]))`). -/
def mkBatch (texts : List (String × String)) (B : List String) :
    List (String × String) :=
  B.map (fun k => (k, lookupTexts texts k))

/-- Embedding of `keys.slice(i, i + batchSize)` chunking; `fuel` bounds the loop
(the key-list length suffices whenever `batchSize ≥ 1`). -/
def chunksAux (n : Nat) : Nat → List String → List (List String)
  | 0, _ => []
  | _, [] => []
  | fuel + 1, l => l.take n :: chunksAux n fuel (l.drop n)

/-- The batches of keys processed by the `for` loop of
`batchTranslateTexts`. -/
def chunks (n : Nat) (l : List String) : List (List String) :=
  chunksAux n l.length l

/-- One iteration of the batch loop: call `translateBatch` (the oracle
`tb`, covering the LLM call, retries and response parsing); on success
`Object.assign(translations, batchTranslations)`, on failure (the
`catch`) bind every key of the batch to its original text. -/
def batchStep (tb : List (String × String) → Except String (List (String × String)))
    (texts : List (String × String)) (translations : Store) (batchKeys : List String) :
    Store :=
  match tb (mkBatch texts batchKeys) with
  | .ok r => r.foldl (fun m kv => storeSet m kv.1 kv.2) translations
  | .error _ => batchKeys.foldl (fun m k => storeSet m k (lookupTexts texts k)) translations

/-- Embedding of `LLMClient.batchTranslateTexts(texts)`: process the key list in
batches of `batchSize`, accumulating the `translations` record. -/
def batchTranslateTexts
    (tb : List (String × String) → Except String (List (String × String)))
    (batchSize : Nat) (texts : List (String × String)) : Store :=
  (chunks batchSize (texts.map Prod.fst)).foldl (batchStep tb texts) storeEmpty

/-- The last binding of `k` in an LLM response record (`Object.assign`
semantics: later bindings win). -/
def lastBinding (r : List (String × String)) (k : String) : Option String :=
  r.foldl (fun acc kv => if kv.1 = k then some kv.2 else acc) none

theorem chunksAux_flatten (n : Nat) (hn : 0 < n) :
    ∀ (fuel : Nat) (l : List String), l.length ≤ fuel →
      (chunksAux n fuel l).flatten = l := by
  intro fuel
  induction fuel with
  | zero =>
    intro l hl
    have : l = [] := List.eq_nil_of_length_eq_zero (by omega)
    subst this
    rfl
  | succ fuel ih =>
    intro l hl
    cases l with
    | nil => rfl
    | cons a t =>
      simp only [chunksAux, List.flatten_cons]
      rw [ih ((a :: t).drop n) ?_]
      · exact List.take_append_drop n (a :: t)
      · simp only [List.length_drop, List.length_cons]
        simp only [List.length_cons] at hl
        omega

/-- The batches partition the key list. -/
theorem chunks_flatten (n : Nat) (hn : 0 < n) (l : List String) :
    (chunks n l).flatten = l :=
  chunksAux_flatten n hn l.length l (le_refl _)

theorem foldl_storeSet_pairs (r : List (String × String)) :
    ∀ (m : Store) (k : String),
      r.foldl (fun m kv => storeSet m kv.1 kv.2) m k
        = r.foldl (fun acc kv => if kv.1 = k then some kv.2 else acc) (m k) := by
  induction r with
  | nil => intro m k; rfl
  | cons kv rest ih =>
    intro m k
    simp only [List.foldl_cons]
    rw [ih]
    congr 1
    by_cases h : kv.1 = k
    · subst h; simp [storeSet]
    · have h' : ¬k = kv.1 := fun hh => h hh.symm
      simp [storeSet, h, h']

theorem foldl_opt_frame (r : List (String × String)) (k : String)
    (h : ∀ kv ∈ r, kv.1 ≠ k) :
    ∀ (a : Option String),
      r.foldl (fun acc kv => if kv.1 = k then some kv.2 else acc) a = a := by
  induction r with
  | nil => intro a; rfl
  | cons kv rest ih =>
    intro a
    simp only [List.foldl_cons, if_neg (h kv (List.mem_cons_self _ _))]
    exact ih (fun kv' h' => h kv' (List.mem_cons_of_mem _ h')) a

theorem foldl_storeSet_keys (v : String → String) (B : List String) :
    ∀ (m : Store) (k : String),
      B.foldl (fun m k' => storeSet m k' (v k')) m k
        = if k ∈ B then some (v k) else m k := by
  induction B with
  | nil => intro m k; simp
  | cons b rest ih =>
    intro m k
    simp only [List.foldl_cons]
    rw [ih]
    by_cases hr : k ∈ rest
    · simp [hr, List.mem_cons]
    · by_cases hb : k = b
      · subst hb
        simp [hr, storeSet]
      · simp [hr, hb, storeSet, List.mem_cons]

theorem batchStep_frame (tb : List (String × String) → Except String (List (String × String)))
    (texts : List (String × String)) (B : List String) (m : Store) (k : String)
    (hok : ∀ r, tb (mkBatch texts B) = .ok r → ∀ kv ∈ r, kv.1 ∈ B)
    (hk : k ∉ B) :
    batchStep tb texts m B k = m k := by
  unfold batchStep
  cases htb : tb (mkBatch texts B) with
  | ok r =>
    dsimp only
    rw [foldl_storeSet_pairs]
    exact foldl_opt_frame r k
      (fun kv hkv heq => hk (heq ▸ hok r htb kv hkv)) (m k)
  | error e =>
    dsimp only
    rw [foldl_storeSet_keys]
    exact if_neg hk

theorem batchFold_frame (tb : List (String × String) → Except String (List (String × String)))
    (texts : List (String × String)) :
    ∀ (CS : List (List String)) (m : Store) (k : String),
      (∀ B ∈ CS, ∀ r, tb (mkBatch texts B) = .ok r → ∀ kv ∈ r, kv.1 ∈ B) →
      (∀ B ∈ CS, k ∉ B) →
      CS.foldl (batchStep tb texts) m k = m k := by
  intro CS
  induction CS with
  | nil => intro m k _ _; rfl
  | cons C rest ih =>
    intro m k hok hnk
    simp only [List.foldl_cons]
    rw [ih _ k (fun B hB => hok B (List.mem_cons_of_mem _ hB))
      (fun B hB => hnk B (List.mem_cons_of_mem _ hB))]
    exact batchStep_frame tb texts C m k (hok C (List.mem_cons_self _ _))
      (hnk C (List.mem_cons_self _ _))

theorem batchFold_result (tb : List (String × String) → Except String (List (String × String)))
    (texts : List (String × String)) :
    ∀ (CS : List (List String)) (m : Store) (k : String) (B : List String),
      B ∈ CS → k ∈ B → CS.Pairwise List.Disjoint →
      (∀ B' ∈ CS, ∀ r, tb (mkBatch texts B') = .ok r → ∀ kv ∈ r, kv.1 ∈ B') →
      CS.foldl (batchStep tb texts) m k
        = match tb (mkBatch texts B) with
          | .ok r => r.foldl (fun acc kv => if kv.1 = k then some kv.2 else acc) (m k)
          | .error _ => some (lookupTexts texts k) := by
  intro CS
  induction CS with
  | nil => intro m k B hB; exact absurd hB (List.not_mem_nil B)
  | cons C rest ih =>
    intro m k B hB hk hdisj hok
    rcases List.mem_cons.mp hB with rfl | hBr
    · -- B is the head chunk: later chunks never touch k
      simp only [List.foldl_cons]
      have hlater : ∀ B' ∈ rest, k ∉ B' := by
        intro B' hB' hkB'
        exact (List.pairwise_cons.mp hdisj).1 B' hB' hk hkB'
      rw [batchFold_frame tb texts rest _ k
        (fun B' h => hok B' (List.mem_cons_of_mem _ h)) hlater]
      unfold batchStep
      cases htb : tb (mkBatch texts B) with
      | ok r =>
        dsimp only
        exact foldl_storeSet_pairs r m k
      | error e =>
        dsimp only
        rw [foldl_storeSet_keys]
        exact if_pos hk
    · -- B is further down: the head chunk does not touch k
      simp only [List.foldl_cons]
      have hkC : k ∉ C := by
        intro hkC
        exact (List.pairwise_cons.mp hdisj).1 B hBr hkC hk
      rw [ih _ k B hBr hk (List.pairwise_cons.mp hdisj).2
        (fun B' h => hok B' (List.mem_cons_of_mem _ h))]
      have hstep := batchStep_frame tb texts C m k (hok C (List.mem_cons_self _ _)) hkC
      cases htb : tb (mkBatch texts B) with
      | ok r =>
        dsimp only
        rw [hstep]
      | error e => dsimp only

/-- Claim C5: In `batchTranslateTexts`, a batch whose `translateBatch` call
fails (rejection after retries, or a parse error — both surface as the
oracle's `.error`) degrades to the original text: every key of that batch
is mapped to `texts[key]` in the returned record.  Keys of other batches
are unaffected: each key's final value is determined by its own batch's
response alone (`Object.assign` last-binding semantics).  The loop
catches the batch error, so the overall call returns the record normally
instead of aborting. -/
theorem C5_batch_failure_isolated
    (tb : List (String × String) → Except String (List (String × String)))
    (batchSize : Nat) (texts : List (String × String))
    (hsize : 0 < batchSize)
    (hnd : (texts.map Prod.fst).Nodup)
    (hok : ∀ B ∈ chunks batchSize (texts.map Prod.fst), ∀ r,
      tb (mkBatch texts B) = .ok r → ∀ kv ∈ r, kv.1 ∈ B) :
    ∀ B ∈ chunks batchSize (texts.map Prod.fst), ∀ k ∈ B,
      (∀ e, tb (mkBatch texts B) = .error e →
        batchTranslateTexts tb batchSize texts k = some (lookupTexts texts k)) ∧
      (∀ r, tb (mkBatch texts B) = .ok r →
        batchTranslateTexts tb batchSize texts k = lastBinding r k) := by
  intro B hB k hk
  have hflat := chunks_flatten batchSize hsize (texts.map Prod.fst)
  have hdisj : (chunks batchSize (texts.map Prod.fst)).Pairwise List.Disjoint :=
    (List.nodup_flatten.mp (by rw [hflat]; exact hnd)).2
  have hres := batchFold_result tb texts (chunks batchSize (texts.map Prod.fst))
    storeEmpty k B hB hk hdisj hok
  constructor
  · intro e htb
    unfold batchTranslateTexts
    rw [hres, htb]
  · intro r htb
    unfold batchTranslateTexts
    rw [hres, htb]
    rfl

/-- Translate-batch oracle for the witness: the first batch (two keys)
fails, the second batch (one key) parses to `{"k3": "C"}`. -/
def tbStub : List (String × String) → Except String (List (String × String)) :=
  fun batch => if batch.length = 2 then .error "network error" else .ok [("k3", "C")]

/-- Witness for `C5_batch_failure_isolated`: three texts in batches of
two; the failing first batch degrades `"k1"` to its original text while
the successful second batch still translates `"k3"`. -/
theorem C5_batch_failure_isolated_witness :
    batchTranslateTexts tbStub 2 [("k1", "a"), ("k2", "b"), ("k3", "c")] "k1"
      = some "a" := by
  have hok : ∀ B ∈ chunks 2 ([("k1", "a"), ("k2", "b"), ("k3", "c")].map Prod.fst), ∀ r,
      tbStub (mkBatch [("k1", "a"), ("k2", "b"), ("k3", "c")] B) = .ok r →
      ∀ kv ∈ r, kv.1 ∈ B := by
    intro B hB r hr kv hkv
    rw [show chunks 2 ([("k1", "a"), ("k2", "b"), ("k3", "c")].map Prod.fst)
      = [["k1", "k2"], ["k3"]] from rfl] at hB
    simp only [List.mem_cons, List.not_mem_nil, or_false] at hB
    rcases hB with rfl | rfl
    · rw [show tbStub (mkBatch [("k1", "a"), ("k2", "b"), ("k3", "c")] ["k1", "k2"])
        = Except.error "network error" from rfl] at hr
      exact Except.noConfusion hr
    · rw [show tbStub (mkBatch [("k1", "a"), ("k2", "b"), ("k3", "c")] ["k3"])
        = Except.ok [("k3", "C")] from rfl] at hr
      injection hr with hr
      subst hr
      simp only [List.mem_singleton] at hkv
      subst hkv
      decide
  exact (C5_batch_failure_isolated tbStub 2 [("k1", "a"), ("k2", "b"), ("k3", "c")]
    (by decide) (by decide) hok ["k1", "k2"] (by decide) "k1" (by decide)).1
    "network error" rfl

/-! ## CacheManager (src/unnamed/part_008)

The in-memory `Map<string, CacheEntry>` is modelled as an
insertion-ordered association list with unique keys (JS `Map`
semantics); `Date.now()` is passed in explicitly.  Disk persistence
(`saveToDisk`/`loadFromDisk`) is fire-and-forget I/O and does not affect
the synchronous result of the operations modelled here. -/

/-- Embedding of `CacheEntry`: data plus creation/expiry timestamps and content hash. -/
structure CacheEntry (α : Type) where
  data : α
  timestamp : Nat
  expiresAt : Nat
  hash : String
deriving DecidableEq

/-- The `CacheConfig` fields the in-memory operations read. -/
structure CacheConfig where
  enabled : Bool
  defaultTTL : Nat
  maxEntries : Nat

/-- The `memoryCache` map. -/
structure CacheState (α : Type) where
  entries : List (String × CacheEntry α)
deriving DecidableEq

/-- JS `Map.prototype.get`. -/
def jsMapGet {α : Type} (l : List (String × CacheEntry α)) (k : String) :
    Option (CacheEntry α) :=
  (l.find? (fun kv => kv.1 == k)).map Prod.snd

/-- JS `Map.prototype.set`: update in place when the key exists
(preserving its position), otherwise append. -/
def jsMapSet {α : Type} (l : List (String × CacheEntry α)) (k : String)
    (e : CacheEntry α) : List (String × CacheEntry α) :=
  if l.any (fun kv => kv.1 == k) then
    l.map (fun kv => if kv.1 == k then (k, e) else kv)
  else
    l ++ [(k, e)]

/-- JS `Map.prototype.delete` (by key). -/
def jsMapDelete {α : Type} (l : List (String × CacheEntry α)) (k : String) :
    List (String × CacheEntry α) :=
  l.filter (fun kv => kv.1 != k)

/-- Embedding of `CacheManager.isExpired`: `Date.now() > entry.expiresAt`. -/
def isExpired {α : Type} (now : Nat) (e : CacheEntry α) : Bool :=
  decide (e.expiresAt < now)

/-- Embedding of `CacheManager.get`, returning the value (`null` = `none`) together
with the post-access state (expired entries are lazily deleted). -/
def CacheManager.get {α : Type} (cfg : CacheConfig) (s : CacheState α) (now : Nat)
    (key : String) : Option α × CacheState α :=
  if !cfg.enabled then (none, s)
  else
    match jsMapGet s.entries key with
    | none => (none, s)
    | some e =>
      if isExpired now e then (none, ⟨jsMapDelete s.entries key⟩)
      else (some e.data, s)

/-- Embedding of `CacheManager.has`, returning the verdict together with the
post-access state. -/
def CacheManager.has {α : Type} (cfg : CacheConfig) (s : CacheState α) (now : Nat)
    (key : String) : Bool × CacheState α :=
  if !cfg.enabled then (false, s)
  else
    match jsMapGet s.entries key with
    | none => (false, s)
    | some e =>
      if isExpired now e then (false, ⟨jsMapDelete s.entries key⟩)
      else (true, s)

/-- The comparator of `entries.sort((a, b) => a[1].timestamp - b[1].timestamp)`. -/
def byTimestamp {α : Type} (a b : String × CacheEntry α) : Prop :=
  a.2.timestamp ≤ b.2.timestamp

instance {α : Type} : DecidableRel (byTimestamp (α := α)) :=
  fun a b => Nat.decLe a.2.timestamp b.2.timestamp

/-- Embedding of `CacheManager.enforceSizeLimit`: when over `maxEntries`, sort the
entries by creation timestamp (JS `sort` is stable) and delete the
oldest until the bound holds. -/
def enforceSizeLimit {α : Type} (cfg : CacheConfig) (s : CacheState α) : CacheState α :=
  if s.entries.length ≤ cfg.maxEntries then s
  else
    let sorted := List.insertionSort byTimestamp s.entries
    let toDelete := (sorted.take (s.entries.length - cfg.maxEntries)).map Prod.fst
    ⟨s.entries.filter (fun kv => !(toDelete.contains kv.1))⟩

/-- Embedding of `CacheManager.set`: build the entry (`expiresAt = now + (ttl ||
defaultTTL)`, JS falsy semantics for `ttl = 0`; `hashFn` models
`generateContentHash(JSON.stringify(data))`), insert it, then enforce
the size limit. -/
def CacheManager.set {α : Type} (hashFn : α → String) (cfg : CacheConfig)
    (s : CacheState α) (now : Nat) (key : String) (data : α) (ttl : Option Nat) :
    CacheState α :=
  if !cfg.enabled then s
  else
    let ttlVal :=
      match ttl with
      | some t => if t = 0 then cfg.defaultTTL else t
      | none => cfg.defaultTTL
    let entry : CacheEntry α := ⟨data, now, now + ttlVal, hashFn data⟩
    enforceSizeLimit cfg ⟨jsMapSet s.entries key entry⟩

theorem jsMapGet_delete {α : Type} (l : List (String × CacheEntry α)) (k : String) :
    jsMapGet (jsMapDelete l k) k = none := by
  unfold jsMapGet jsMapDelete
  have h : (l.filter (fun kv => kv.1 != k)).find? (fun kv => kv.1 == k) = none := by
    rw [List.find?_eq_none]
    intro kv hkv
    have h2 := (List.mem_filter.mp hkv).2
    simp only [bne_iff_ne, ne_eq] at h2
    simp [h2]
  rw [h]
  rfl

/-- Claim C6: For every state, access time and key: (a) `get` never returns
the data of an entry whose expiry has passed, and `has` never reports
one; (b) when the (enabled) cache holds an expired entry under the key,
the access returns a miss and deletes the entry (lazy eviction). -/
theorem C6_no_expired_entry {α : Type} (cfg : CacheConfig) (s : CacheState α)
    (now : Nat) (key : String) :
    (∀ d, (CacheManager.get cfg s now key).1 = some d →
      ∃ e, jsMapGet s.entries key = some e ∧ ¬(e.expiresAt < now) ∧ d = e.data) ∧
    ((CacheManager.has cfg s now key).1 = true →
      ∃ e, jsMapGet s.entries key = some e ∧ ¬(e.expiresAt < now)) ∧
    (cfg.enabled = true → ∀ e, jsMapGet s.entries key = some e → e.expiresAt < now →
      (CacheManager.get cfg s now key).1 = none ∧
      jsMapGet (CacheManager.get cfg s now key).2.entries key = none ∧
      (CacheManager.has cfg s now key).1 = false ∧
      jsMapGet (CacheManager.has cfg s now key).2.entries key = none) := by
  refine ⟨?_, ?_, ?_⟩
  · intro d hd
    unfold CacheManager.get at hd
    split at hd
    · exact absurd hd (by simp)
    · cases heq : jsMapGet s.entries key with
      | none =>
        rw [heq] at hd
        exact absurd hd (by simp)
      | some e =>
        rw [heq] at hd
        dsimp only at hd
        by_cases hexp : isExpired now e = true
        · rw [if_pos hexp] at hd
          exact absurd hd (by simp)
        · rw [if_neg hexp] at hd
          refine ⟨e, rfl, by simpa [isExpired] using hexp, by simpa using hd.symm⟩
  · intro hh
    unfold CacheManager.has at hh
    split at hh
    · exact absurd hh (by simp)
    · cases heq : jsMapGet s.entries key with
      | none =>
        rw [heq] at hh
        exact absurd hh (by simp)
      | some e =>
        rw [heq] at hh
        dsimp only at hh
        by_cases hexp : isExpired now e = true
        · rw [if_pos hexp] at hh
          exact absurd hh (by simp)
        · rw [if_neg hexp] at hh
          exact ⟨e, rfl, by simpa [isExpired] using hexp⟩
  · intro hen e heq hexp
    have hexp' : isExpired now e = true := by simpa [isExpired] using hexp
    have hget : CacheManager.get cfg s now key = (none, ⟨jsMapDelete s.entries key⟩) := by
      unfold CacheManager.get
      rw [heq]
      simp [hen, hexp']
    have hhas : CacheManager.has cfg s now key = (false, ⟨jsMapDelete s.entries key⟩) := by
      unfold CacheManager.has
      rw [heq]
      simp [hen, hexp']
    rw [hget, hhas]
    exact ⟨rfl, jsMapGet_delete _ _, rfl, jsMapGet_delete _ _⟩

/-- Witness for `C6_no_expired_entry`: a one-entry cache whose entry
expired at time 10, accessed at time 11. -/
theorem C6_no_expired_entry_witness :
    (CacheManager.get { enabled := true, defaultTTL := 10, maxEntries := 2 }
        ⟨[("k", ⟨"v", 0, 10, "h"⟩)]⟩ 11 "k").1 = (none : Option String) ∧
    jsMapGet (CacheManager.get { enabled := true, defaultTTL := 10, maxEntries := 2 }
        ⟨[("k", ⟨"v", 0, 10, "h"⟩)]⟩ 11 "k").2.entries "k" = none ∧
    (CacheManager.has { enabled := true, defaultTTL := 10, maxEntries := 2 }
        ⟨[("k", (⟨"v", 0, 10, "h"⟩ : CacheEntry String))]⟩ 11 "k").1 = false := by
  have h := (C6_no_expired_entry { enabled := true, defaultTTL := 10, maxEntries := 2 }
    (⟨[("k", ⟨"v", 0, 10, "h"⟩)]⟩ : CacheState String) 11 "k").2.2 rfl
    ⟨"v", 0, 10, "h"⟩ (by decide) (by decide)
  exact ⟨h.1, h.2.1, h.2.2.1⟩

/-! ### C7: size limit and oldest-first eviction -/

instance {α : Type} : IsTotal (String × CacheEntry α) byTimestamp :=
  ⟨fun a b => Nat.le_total a.2.timestamp b.2.timestamp⟩

instance {α : Type} : IsTrans (String × CacheEntry α) byTimestamp :=
  ⟨fun _ _ _ hab hbc => Nat.le_trans hab hbc⟩

theorem jsMapSet_keys {α : Type} (l : List (String × CacheEntry α)) (k : String)
    (e : CacheEntry α) :
    (jsMapSet l k e).map Prod.fst
      = if l.any (fun kv => kv.1 == k) then l.map Prod.fst
        else l.map Prod.fst ++ [k] := by
  unfold jsMapSet
  by_cases hany : l.any (fun kv => kv.1 == k) = true
  · simp only [if_pos hany, List.map_map]
    refine List.map_congr_left ?_
    intro kv _
    by_cases hk : (kv.1 == k) = true
    · simp only [Function.comp_apply, if_pos hk]
      exact (eq_of_beq hk).symm
    · simp only [Function.comp_apply, if_neg hk]
  · simp only [if_neg hany, List.map_append, List.map_cons, List.map_nil]

theorem jsMapSet_keys_nodup {α : Type} (l : List (String × CacheEntry α)) (k : String)
    (e : CacheEntry α) (hnd : (l.map Prod.fst).Nodup) :
    ((jsMapSet l k e).map Prod.fst).Nodup := by
  rw [jsMapSet_keys]
  split
  · exact hnd
  · next hany =>
    refine List.Nodup.append hnd (List.nodup_singleton k) ?_
    intro a ha hb
    rw [List.mem_singleton] at hb
    subst hb
    apply hany
    rw [List.any_eq_true]
    rcases List.mem_map.mp ha with ⟨kv, hkv, hfst⟩
    exact ⟨kv, hkv, by rw [hfst]; exact beq_self_eq_true a⟩

theorem enforceSizeLimit_length {α : Type} (cfg : CacheConfig) (t : CacheState α)
    (hnd : (t.entries.map Prod.fst).Nodup) :
    (enforceSizeLimit cfg t).entries.length ≤ cfg.maxEntries := by
  unfold enforceSizeLimit
  split
  · next h => exact h
  · next h =>
    dsimp only
    have hlen : cfg.maxEntries < t.entries.length := Nat.lt_of_not_le h
    set sorted := List.insertionSort byTimestamp t.entries with hsorted
    set d := t.entries.length - cfg.maxEntries with hddef
    set toDelete := (sorted.take d).map Prod.fst with htdel
    set p := fun kv : String × CacheEntry α => toDelete.contains kv.1 with hp
    have hperm : sorted.Perm t.entries := List.perm_insertionSort _ _
    have hlensorted : sorted.length = t.entries.length := hperm.length_eq
    have hsortnd : (sorted.map Prod.fst).Nodup := (hperm.map Prod.fst).nodup_iff.mpr hnd
    -- split the sorted list at position d
    have hsplit : sorted = sorted.take d ++ sorted.drop d := (List.take_append_drop d sorted).symm
    have hdisj : List.Disjoint ((sorted.take d).map Prod.fst) ((sorted.drop d).map Prod.fst) := by
      rw [hsplit, List.map_append] at hsortnd
      exact (List.nodup_append.mp hsortnd).2.2
    have hcount_take : (sorted.take d).countP p = d := by
      rw [List.countP_eq_length.mpr ?_, List.length_take]
      · omega
      · intro kv hkv
        exact List.elem_eq_true_of_mem (List.mem_map_of_mem Prod.fst hkv)
    have hcount_drop : (sorted.drop d).countP p = 0 := by
      rw [List.countP_eq_zero]
      intro kv hkv hpkv
      exact hdisj (List.mem_of_elem_eq_true hpkv) (List.mem_map_of_mem Prod.fst hkv)
    have hcount : sorted.countP p = d := by
      conv_lhs => rw [hsplit]
      rw [List.countP_append, hcount_take, hcount_drop]
      omega
    have htotal := List.length_eq_countP_add_countP p (l := sorted)
    have hfilterlen :
        (t.entries.filter (fun kv => !(toDelete.contains kv.1))).length = cfg.maxEntries := by
      rw [← List.countP_eq_length_filter]
      have hq : t.entries.countP (fun kv => !(toDelete.contains kv.1))
          = sorted.countP (fun kv => !(toDelete.contains kv.1)) :=
        (hperm.countP_eq _).symm
      rw [hq]
      have hconv : sorted.countP (fun kv => !(toDelete.contains kv.1))
          = sorted.countP (fun kv => decide ¬(p kv = true)) := by
        refine List.countP_congr ?_
        intro kv _
        by_cases hx : p kv = true <;> simp [hx, hp] at *
      rw [hconv]
      omega
    rw [hfilterlen]

theorem enforceSizeLimit_evicts_oldest {α : Type} (cfg : CacheConfig) (t : CacheState α)
    (hnd : (t.entries.map Prod.fst).Nodup) :
    ∀ kv ∈ (enforceSizeLimit cfg t).entries, ∀ kv' ∈ t.entries,
      kv'.1 ∉ (enforceSizeLimit cfg t).entries.map Prod.fst →
      kv'.2.timestamp ≤ kv.2.timestamp := by
  unfold enforceSizeLimit
  split
  · intro kv _ kv' hkv' habs
    exact absurd (List.mem_map_of_mem Prod.fst hkv') habs
  · next h =>
    dsimp only
    intro kv hkv kv' hkv' hnotin
    set sorted := List.insertionSort byTimestamp t.entries with hsorted
    set d := t.entries.length - cfg.maxEntries with hddef
    set toDelete := (sorted.take d).map Prod.fst with htdel
    have hperm : sorted.Perm t.entries := List.perm_insertionSort _ _
    have hsortnd : (sorted.map Prod.fst).Nodup := (hperm.map Prod.fst).nodup_iff.mpr hnd
    have hsplit : sorted = sorted.take d ++ sorted.drop d := (List.take_append_drop d sorted).symm
    have hdisj : List.Disjoint ((sorted.take d).map Prod.fst) ((sorted.drop d).map Prod.fst) := by
      rw [hsplit, List.map_append] at hsortnd
      exact (List.nodup_append.mp hsortnd).2.2
    have hmemf := List.mem_filter.mp hkv
    -- the evicted entry's key is in toDelete
    have hkey' : kv'.1 ∈ toDelete := by
      by_contra hc
      apply hnotin
      refine List.mem_map_of_mem Prod.fst (List.mem_filter.mpr ⟨hkv', ?_⟩)
      simp only [Bool.not_eq_true']
      by_cases hcc : toDelete.contains kv'.1 = true
      · exact absurd (List.mem_of_elem_eq_true hcc) hc
      · simpa using hcc
    -- locate both entries in the sorted split
    have hkv'sorted : kv' ∈ sorted := hperm.mem_iff.mpr hkv'
    have hkv'take : kv' ∈ sorted.take d := by
      rcases List.mem_append.mp (hsplit ▸ hkv'sorted) with hm | hm
      · exact hm
      · exact absurd hkey' (fun hcc =>
          hdisj hcc (List.mem_map_of_mem Prod.fst hm))
    have hkvsorted : kv ∈ sorted := hperm.mem_iff.mpr hmemf.1
    have hkvdrop : kv ∈ sorted.drop d := by
      rcases List.mem_append.mp (hsplit ▸ hkvsorted) with hm | hm
      · exfalso
        have : toDelete.contains kv.1 = true :=
          List.elem_eq_true_of_mem (List.mem_map_of_mem Prod.fst hm)
        rw [this] at hmemf
        simpa using hmemf.2
      · exact hm
    have hsorted2 : List.Sorted byTimestamp sorted :=
      List.sorted_insertionSort byTimestamp t.entries
    have hpw : List.Pairwise byTimestamp (sorted.take d ++ sorted.drop d) := by
      rw [← hsplit]
      exact hsorted2
    exact (List.pairwise_append.mp hpw).2.2 kv' hkv'take kv hkvdrop

/-- Cache configuration of the spec's eviction scenario
(`maxEntries = 2`). -/
def cfgCap2 : CacheConfig := { enabled := true, defaultTTL := 1000, maxEntries := 2 }

/-- Content-hash stand-in for concrete cache evaluations. -/
def hashStub : String → String := fun _ => "h"

/-- Three inserts with distinct keys at increasing timestamps into an
initially empty cache bounded at two entries. -/
def cache3 : CacheState String :=
  CacheManager.set hashStub cfgCap2
    (CacheManager.set hashStub cfgCap2
      (CacheManager.set hashStub cfgCap2 ⟨[]⟩ 1 "k1" "a" none) 2 "k2" "b" none)
    3 "k3" "c" none

/-- Claim C7: On an enabled cache with unique keys, every completed `set`
leaves at most `maxEntries` entries; the size-limit enforcement that
`set` runs evicts oldest-created-first — any entry it drops has a
creation timestamp no newer than every retained entry's; and in the
spec's scenario (`maxEntries = 2`, three distinct keys inserted at
increasing timestamps) exactly the two most-recently-created entries
remain retrievable and the oldest is gone. -/
theorem C7_set_size_limit {α : Type} (hashFn : α → String) (cfg : CacheConfig)
    (s : CacheState α) (now : Nat) (key : String) (data : α) (ttl : Option Nat)
    (hen : cfg.enabled = true)
    (hnd : (s.entries.map Prod.fst).Nodup) :
    (CacheManager.set hashFn cfg s now key data ttl).entries.length ≤ cfg.maxEntries ∧
    (∀ (t : CacheState α), (t.entries.map Prod.fst).Nodup →
      ∀ kv ∈ (enforceSizeLimit cfg t).entries, ∀ kv' ∈ t.entries,
        kv'.1 ∉ (enforceSizeLimit cfg t).entries.map Prod.fst →
        kv'.2.timestamp ≤ kv.2.timestamp) ∧
    ((CacheManager.get cfgCap2 cache3 3 "k2").1 = some "b" ∧
     (CacheManager.get cfgCap2 cache3 3 "k3").1 = some "c" ∧
     (CacheManager.get cfgCap2 cache3 3 "k1").1 = none ∧
     cache3.entries.length = 2) := by
  refine ⟨?_, fun t hndt => enforceSizeLimit_evicts_oldest cfg t hndt, by decide⟩
  unfold CacheManager.set
  rw [if_neg (by simp [hen])]
  dsimp only
  exact enforceSizeLimit_length cfg _ (jsMapSet_keys_nodup _ _ _ hnd)

/-- Witness for `C7_set_size_limit`: inserting a second key into a
one-entry cache bounded at two entries stays within the bound. -/
theorem C7_set_size_limit_witness :
    (CacheManager.set hashStub cfgCap2
      ⟨[("k1", ⟨"a", 1, 1001, "h"⟩)]⟩ 2 "k2" "b" none).entries.length
      ≤ cfgCap2.maxEntries :=
  (C7_set_size_limit hashStub cfgCap2 ⟨[("k1", ⟨"a", 1, 1001, "h"⟩)]⟩ 2 "k2" "b" none
    rfl (by decide)).1

/-! ### C10: accessors hand out defensive copies

JS collections are heap references: returning `this.textToKeyMap`
directly would alias internal state, whereas the source's
`new Map(this.textToKeyMap)`, `new Set(this.existingKeys)` and
`{ ...this.allExtractedTexts }` allocate a fresh object holding a copy
of the contents.  To state the frame property we model one heap per
collection type as a list of cells indexed by reference; each accessor
reads the internal cell and allocates a fresh cell with the copied
contents, exactly as the copy constructors do. -/

/-- A heap of collections of type `σ`; a reference is a cell index. -/
abbrev Heap (σ : Type) := List σ

/-- Dereference. -/
def Heap.read {σ : Type} (h : Heap σ) (r : Nat) : Option σ := h[r]?

/-- In-place mutation of the object behind reference `r`. -/
def Heap.write {σ : Type} (h : Heap σ) (r : Nat) (v : σ) : Heap σ := h.set r v

/-- Allocation of a fresh object (`new Map(...)`, `new Set(...)`,
`{ ... }`): the new reference points past every existing cell. -/
def Heap.alloc {σ : Type} (h : Heap σ) (v : σ) : Nat × Heap σ := (h.length, h ++ [v])

/-- Embedding of `KeyGenerator.getTextToKeyMap`: `return new Map(this.textToKeyMap)`. -/
def getTextToKeyMap (h : Heap (String → Option String)) (internalRef : Nat) :
    Nat × Heap (String → Option String) :=
  Heap.alloc h ((h.read internalRef).getD (fun _ => none))

/-- Embedding of `KeyGenerator.getAllKeys`: `return new Set(this.existingKeys)`. -/
def getAllKeys (h : Heap (String → Bool)) (internalRef : Nat) :
    Nat × Heap (String → Bool) :=
  Heap.alloc h ((h.read internalRef).getD (fun _ => false))

/-- Embedding of `FileProcessor.getExtractedTexts`:
`return { ...this.allExtractedTexts }`. -/
def getExtractedTexts (h : Heap Store) (internalRef : Nat) : Nat × Heap Store :=
  Heap.alloc h ((h.read internalRef).getD storeEmpty)

/-- A `KeyGenerator` object: references to its two internal collections
(`existingKeys` lives in the set heap, `textToKeyMap` in the map heap). -/
structure KGRefs where
  existingKeysRef : Nat
  textToKeyMapRef : Nat

/-- The generator state read out of the heaps. -/
def readKGState (hs : Heap (String → Bool)) (hm : Heap (String → Option String))
    (refs : KGRefs) : KGState :=
  ⟨(hs.read refs.existingKeysRef).getD (fun _ => false),
   (hm.read refs.textToKeyMapRef).getD (fun _ => none)⟩

theorem heap_alloc_fresh_read {σ : Type} (h : Heap σ) (v : σ) (r : Nat)
    (hr : r < h.length) :
    (Heap.alloc h v).1 ≠ r ∧
    ∀ w, ((Heap.alloc h v).2.write (Heap.alloc h v).1 w).read r = h.read r := by
  constructor
  · exact fun heq => absurd (heq ▸ hr) (lt_irrefl _)
  · intro w
    unfold Heap.alloc Heap.write Heap.read
    rw [List.getElem?_set_ne (by omega), List.getElem?_append]
    rw [if_pos hr]

/-- Claim C10: The accessors return defensive copies: `getTextToKeyMap`,
`getAllKeys` and `getExtractedTexts` each allocate a reference distinct
from the component's internal one, holding the copied contents; writing
any value through the returned reference leaves the internal cell — and
therefore the result of every subsequent `generateKey` call and
`mergeExtracted` merge — unchanged. -/
theorem C10_accessors_defensive (hs : Heap (String → Bool))
    (hm : Heap (String → Option String)) (hx : Heap Store) (refs : KGRefs) (xref : Nat)
    (hvs : refs.existingKeysRef < hs.length)
    (hvm : refs.textToKeyMapRef < hm.length)
    (hvx : xref < hx.length) :
    ((getTextToKeyMap hm refs.textToKeyMapRef).1 ≠ refs.textToKeyMapRef ∧
      ∀ v, (((getTextToKeyMap hm refs.textToKeyMapRef).2.write
          (getTextToKeyMap hm refs.textToKeyMapRef).1 v).read refs.textToKeyMapRef)
        = hm.read refs.textToKeyMapRef) ∧
    ((getAllKeys hs refs.existingKeysRef).1 ≠ refs.existingKeysRef ∧
      ∀ v, (((getAllKeys hs refs.existingKeysRef).2.write
          (getAllKeys hs refs.existingKeysRef).1 v).read refs.existingKeysRef)
        = hs.read refs.existingKeysRef) ∧
    ((getExtractedTexts hx xref).1 ≠ xref ∧
      ∀ v, (((getExtractedTexts hx xref).2.write
          (getExtractedTexts hx xref).1 v).read xref) = hx.read xref) ∧
    (∀ (vm : String → Option String) (cfg : KeyGenConfig) (env : KGEnv) (now : Nat)
        (text : String),
      generateKey cfg env
        (readKGState hs ((getTextToKeyMap hm refs.textToKeyMapRef).2.write
          (getTextToKeyMap hm refs.textToKeyMapRef).1 vm) refs) now text
        = generateKey cfg env (readKGState hs hm refs) now text) ∧
    (∀ (vx : Store) (store' : Store) (pairs : List (String × String)),
      store' = (((getExtractedTexts hx xref).2.write
          (getExtractedTexts hx xref).1 vx).read xref).getD storeEmpty →
      mergeExtracted store' pairs
        = mergeExtracted ((hx.read xref).getD storeEmpty) pairs) := by
  have h1 := heap_alloc_fresh_read hm ((hm.read refs.textToKeyMapRef).getD (fun _ => none))
    refs.textToKeyMapRef hvm
  have h2 := heap_alloc_fresh_read hs ((hs.read refs.existingKeysRef).getD (fun _ => false))
    refs.existingKeysRef hvs
  have h3 := heap_alloc_fresh_read hx ((hx.read xref).getD storeEmpty) xref hvx
  refine ⟨h1, h2, h3, ?_, ?_⟩
  · intro vm cfg env now text
    unfold readKGState getTextToKeyMap
    rw [h1.2 vm]
  · intro vx store' pairs hstore
    rw [hstore]
    unfold getExtractedTexts
    rw [h3.2 vx]

/-- Witness for `C10_accessors_defensive`: one-cell heaps holding a
generator that has already mapped `"提交"`, plus one extracted-texts
record. -/
theorem C10_accessors_defensive_witness :
    (getTextToKeyMap [fun t => if t = "提交" then some "ti_jiao" else none] 0).1 ≠ 0 ∧
    (getAllKeys [fun k => k = "ti_jiao"] 0).1 ≠ 0 ∧
    (getExtractedTexts [storeK1A] 0).1 ≠ 0 := by
  have h := C10_accessors_defensive [fun k => (k = "ti_jiao" : Bool)]
    [fun t => if t = "提交" then some "ti_jiao" else none] [storeK1A] ⟨0, 0⟩ 0
    (by decide) (by decide) (by decide)
  exact ⟨h.1.1, h.2.1.1, h.2.2.1.1⟩

end AxI18n
